import Mathlib

/-!
# Verification of the `sabi` replication runtime core

Shallow embedding of the data structures and algorithms of the repository:

* `NetworkAck` (`src/sabi/src/protocol/ack.rs`)
* `InterestQueue`, `UnackedInterests`, `queue_interests`
  (`src/sabi/src/protocol/interest.rs`)
* `QueuedInputs` (`src/sabi/src/protocol/input.rs`)
* the fixed-timestep accumulator loop and the rewind/resim pass of
  `NetworkSimulationStage::run` (`src/sabi/src/stage.rs`)

Ticks (`NetworkTick`, a `u64` newtype in the source) are modelled as `ℕ`;
the `u32` ack bitmask is a `ℕ` kept below `2^32` by the operations, with
wrap-around made explicit where the source can overflow.
-/

namespace Sabi

/-- `NetworkAck` from `src/sabi/src/protocol/ack.rs`: a 32-bit sliding
bitmask of acknowledged ticks below a moving `base`. -/
structure NetworkAck where
  base : ℕ
  ack : ℕ
  deriving Repr, DecidableEq

namespace NetworkAck

/-- `NetworkAck::new(base)`. -/
def new (base : ℕ) : NetworkAck := { base := base, ack := 0 }

/-- `NetworkAck::ack(&mut self, tick)` (the method is named `ack` in the
source; renamed here because the structure field already uses the name).

Source:
```
let diff = self.base.tick() as i64 - tick.tick() as i64 - 1;
if diff >= 0 && diff <= 32 {
    self.ack |= 1 << diff;
}
```
`self.ack` is a `u32`; for `diff = 32` the shift `1u32 << 32` overflows.
Rust release builds mask the shift amount (`1 << (32 % 32) = 1`), which is
the semantics embedded here; debug builds panic at that input. -/
def ackTick (a : NetworkAck) (tick : ℕ) : NetworkAck :=
  let diff : ℤ := (a.base : ℤ) - (tick : ℤ) - 1
  if 0 ≤ diff ∧ diff ≤ 32 then
    { a with ack := a.ack ||| (1 <<< (diff.toNat % 32)) }
  else
    a

/-- Whether tick `t` is recorded as acknowledged in the 32-bit window of
`a`: the bit `a.base - 1 - t` is set and lies inside the window. -/
def ackedIn (a : NetworkAck) (t : ℕ) : Bool :=
  if t < a.base ∧ a.base - t - 1 < 32 then
    a.ack.testBit (a.base - t - 1)
  else
    false

/-- `NetworkAck::set_base(&mut self, new_base)`: returns the unacked ticks
that fall out of the window, and the slid ack.

Source:
```
let base_diff = new_base.tick() as i64 - self.base.tick() as i64;
for index in ((32 - base_diff).max(0)..32).rev() {
    let tick_num = self.base.tick() as i64 - index as i64;
    if tick_num > 0 {
        let tick = NetworkTick::new(tick_num as u64 - 1);
        if self.ack & (1 << index) == 0 {
            unacked.push(tick);
        }
    }
}
if base_diff >= 32 {
    self.ack = 0;
    unacked.extend((self.base.tick() + 32..new_base.tick()).map(...));
} else if base_diff > 0 {
    self.ack = self.ack << base_diff;
}
self.base = new_base;
```
The `u32` left shift by `base_diff ∈ (0, 32)` drops high bits, hence the
`% 2^32` in `set_base`. The translation is split into three definitions:
`window` is the `for` loop (iterating bit indices downward), `gapExt` the
`unacked.extend` line, and `set_base` assembles the returned list and the
new ack state. -/
def window (a : NetworkAck) (new_base : ℕ) : List ℕ :=
  ((List.range 32).filter
      (fun (i : ℕ) =>
        decide (max (32 - ((new_base : ℤ) - (a.base : ℤ))) 0 ≤ (i : ℤ)))).reverse.filterMap
    (fun (i : ℕ) =>
      if 0 < (a.base : ℤ) - (i : ℤ) ∧ a.ack &&& ((1 : ℕ) <<< i) = 0 then
        some ((a.base : ℤ) - (i : ℤ) - 1).toNat
      else
        none)

/-- The `unacked.extend(...)` line of `set_base`: when the base jumps by at
least 32, the ticks `[base + 32, new_base)` are also emitted (the range is
empty otherwise). -/
def gapExt (a : NetworkAck) (new_base : ℕ) : List ℕ :=
  if 32 ≤ (new_base : ℤ) - (a.base : ℤ) then
    (List.range (new_base - (a.base + 32))).map (fun n => a.base + 32 + n)
  else
    []

def set_base (a : NetworkAck) (new_base : ℕ) :
    List ℕ × NetworkAck :=
  let base_diff : ℤ := (new_base : ℤ) - (a.base : ℤ)
  (window a new_base ++ gapExt a new_base,
   { base := new_base,
     ack :=
       if 32 ≤ base_diff then 0
       else if 0 < base_diff then (a.ack <<< base_diff.toNat) % 2 ^ 32
       else a.ack })

end NetworkAck

/-! ### Remaining definitions continue below; all lemmas and claim theorems follow the definitions. -/

/-- An `Interest` is the pair `(Entity, ReplicateId)` from
`src/sabi/src/protocol/interest.rs`; the entity id and the replicate id are
both modelled as `ℕ`. -/
abbrev Interest := ℕ × ℕ

/-- Structure `InterestQueue<I>` from `src/sabi/src/protocol/interest.rs`:
a deduplicating FIFO, a `HashSet` (`contains`) alongside a `VecDeque`
(`queue`). -/
structure InterestQueue (I : Type) [DecidableEq I] where
  contains : Finset I
  queue : List I

instance {I : Type} [DecidableEq I] : DecidableEq (InterestQueue I) := fun a b =>
  decidable_of_iff (a.contains = b.contains ∧ a.queue = b.queue)
    (by cases a; cases b; simp)

namespace InterestQueue

variable {I : Type} [DecidableEq I]

/-- Constructor `InterestQueue::new()` (also its `Default`). -/
def new : InterestQueue I := { contains := ∅, queue := [] }

/-- Operation `VecDeque::swap_remove_back(i)` (used by `push_front`):
removes the element at index `i` by swapping it with the back element and
popping the back; no-op when `i` is out of range. -/
def swapRemoveBack (l : List I) (i : ℕ) : List I :=
  if i < l.length then
    match l.getLast? with
    | none => l
    | some b => (l.set i b).dropLast
  else
    l

/-- Method `InterestQueue::push_back`: no-op when the element is already in
the `contains` set, else insert into the set and append to the queue. (The
source also returns the prior containment flag, which no caller modelled
here consumes.) -/
def push_back (q : InterestQueue I) (x : I) : InterestQueue I :=
  if x ∈ q.contains then
    q
  else
    { contains := insert x q.contains, queue := q.queue ++ [x] }

/-- Method `InterestQueue::push_front`: when the element is absent, insert
it at the front; when present, find its first index in the queue,
`swap_remove_back` it, and re-push it at the front (the `contains` set is
left unchanged). -/
def push_front (q : InterestQueue I) (x : I) : InterestQueue I :=
  if x ∈ q.contains then
    { contains := q.contains,
      queue := x :: swapRemoveBack q.queue (q.queue.findIdx fun y => decide (y = x)) }
  else
    { contains := insert x q.contains, queue := x :: q.queue }

/-- Method `InterestQueue::pop_front`: pops the head and removes it from
the `contains` set. -/
def pop_front (q : InterestQueue I) : Option I × InterestQueue I :=
  match q.queue with
  | [] => (none, q)
  | x :: rest => (some x, { contains := q.contains.erase x, queue := rest })

/-- The representation invariant of `InterestQueue`: the queue is
duplicate-free and the `contains` set holds exactly the queued elements.
Stated with `List.toFinset` so that it is decidable on concrete states. -/
def Inv (q : InterestQueue I) : Prop :=
  q.queue.Nodup ∧ q.contains = q.queue.toFinset

instance (q : InterestQueue I) : Decidable q.Inv := by
  unfold Inv
  infer_instance

end InterestQueue

/-- One operation on an `InterestQueue`, for stating properties of
arbitrary operation sequences. -/
inductive QueueOp (I : Type) where
  | pushBack (x : I)
  | pushFront (x : I)
  | popFront
  deriving DecidableEq

/-- Apply one operation (the value popped by `pop_front` is discarded). -/
def applyOp {I : Type} [DecidableEq I] (q : InterestQueue I) :
    QueueOp I → InterestQueue I
  | .pushBack x => q.push_back x
  | .pushFront x => q.push_front x
  | .popFront => q.pop_front.2

/-- Run a sequence of operations from the empty queue. -/
def runOps {I : Type} [DecidableEq I] (ops : List (QueueOp I)) : InterestQueue I :=
  ops.foldl applyOp .new

/-- The per-client bin-packing loop of `queue_interests`
(`src/sabi/src/protocol/interest.rs`). Arguments: the MTU (`max.0`), the
size-estimate table, the `requires` table (`demands.require`, `[]` when a
kind has no entry), then the `contains` set and queue list of the client's
`InterestQueue`, the running `used` count, and the accumulators `to_send`
and `unsent`. Returns `(to_send, unsent, final queue)`.

Source loop body:
```
while let Some((entity, replicate_id)) = queue.pop_front() {
    let mut grouped_ids = ...; grouped_ids.push(&replicate_id);
    if let Some(group) = demands.require.get(&replicate_id) {
        grouped_ids.extend(group);
    }
    let estimate: usize = grouped_ids.iter().map(|id| estimates.get(id)).sum();
    let space_left = max.0.saturating_sub(used + estimate);
    if used + estimate > max.0 {
        unsent.push((entity, replicate_id));
        if space_left > 30 { continue; } else { break; }
    }
    for id in grouped_ids { to_send.push(*client_id, (entity, *id)); }
    used += estimate;
}
```
The `pop_front` call is inlined: the head is removed from both the queue
list and the `contains` set. Natural subtraction makes `mtu - (used +
estimate)` the `saturating_sub` of the source. -/
def dispatchLoop (mtu : ℕ) (est : ℕ → ℕ) (req : ℕ → List ℕ) :
    Finset Interest → List Interest → ℕ → List Interest → List Interest →
    List Interest × List Interest × InterestQueue Interest
  | contains, [], _, to_send, unsent => (to_send, unsent, ⟨contains, []⟩)
  | contains, (entity, rid) :: rest, used, to_send, unsent =>
    let contains' := contains.erase (entity, rid)
    let grouped := rid :: req rid
    let estimate := (grouped.map est).sum
    if mtu < used + estimate then
      if 30 < mtu - (used + estimate) then
        dispatchLoop mtu est req contains' rest used to_send (unsent ++ [(entity, rid)])
      else
        (to_send, unsent ++ [(entity, rid)], ⟨contains', rest⟩)
    else
      dispatchLoop mtu est req contains' rest (used + estimate)
        (to_send ++ grouped.map fun g => (entity, g)) unsent

/-- One client's slice of `queue_interests`: run the loop, then re-push the
unsent interests to the front in reverse order. Returns the outgoing
interest list and the final queue. -/
def queue_interests_client (mtu : ℕ) (est : ℕ → ℕ) (req : ℕ → List ℕ)
    (q : InterestQueue Interest) : List Interest × InterestQueue Interest :=
  let r := dispatchLoop mtu est req q.contains q.queue 0 [] []
  (r.1, r.2.1.reverse.foldl (fun acc x => acc.push_front x) r.2.2)

/-- The bin-packing loop exactly as claim C6 words it (the spec text of
section 4.4, step 2d): on a non-fitting group, record the interest in
`unsent` and continue if and only if `MTU - used > 30`, else break. Stated
over the queue as a plain list, as the spec narration does. -/
def dispatchLoopClaim (mtu : ℕ) (est : ℕ → ℕ) (req : ℕ → List ℕ) :
    List Interest → ℕ → List Interest → List Interest →
    List Interest × List Interest × List Interest
  | [], _, to_send, unsent => (to_send, unsent, [])
  | (entity, rid) :: rest, used, to_send, unsent =>
    let grouped := rid :: req rid
    let estimate := (grouped.map est).sum
    if mtu < used + estimate then
      if 30 < mtu - used then
        dispatchLoopClaim mtu est req rest used to_send (unsent ++ [(entity, rid)])
      else
        (to_send, unsent ++ [(entity, rid)], rest)
    else
      dispatchLoopClaim mtu est req rest (used + estimate)
        (to_send ++ grouped.map fun g => (entity, g)) unsent

/-- The bin-packing loop as the amended claim words it: identical to
`dispatchLoopClaim` except that the slack compared against the 30-byte
threshold is the remaining budget after accounting the popped group,
`MTU - (used + est)` with saturating subtraction. -/
def dispatchLoopAmended (mtu : ℕ) (est : ℕ → ℕ) (req : ℕ → List ℕ) :
    List Interest → ℕ → List Interest → List Interest →
    List Interest × List Interest × List Interest
  | [], _, to_send, unsent => (to_send, unsent, [])
  | (entity, rid) :: rest, used, to_send, unsent =>
    let grouped := rid :: req rid
    let estimate := (grouped.map est).sum
    if mtu < used + estimate then
      if 30 < mtu - (used + estimate) then
        dispatchLoopAmended mtu est req rest used to_send (unsent ++ [(entity, rid)])
      else
        (to_send, unsent ++ [(entity, rid)], rest)
    else
      dispatchLoopAmended mtu est req rest (used + estimate)
        (to_send ++ grouped.map fun g => (entity, g)) unsent

/-- Structure `UnackedInterests` (`src/sabi/src/protocol/interest.rs`): the
per-client ledger `BTreeMap<NetworkTick, Vec<Interest>>` of interests sent
at a tick and not yet acknowledged, modelled as an association list with
distinct keys. -/
structure UnackedInterests where
  unacked : List (ℕ × List Interest)
  deriving DecidableEq

/-- Method `UnackedInterests::resend_unacked`: every ledger entry with
`current_tick - tick < RESEND_INTEREST_BUFFER` (i64 arithmetic, buffer 32)
has its interests `push_front`ed into the queue and is then removed from
the ledger; other entries stay. The source collects the promoted keys in a
`resend` vector and removes them afterwards; since the filter predicate
depends only on the key, that equals keeping the entries that fail the
predicate. -/
def UnackedInterests.resend_unacked (u : UnackedInterests) (current : ℕ)
    (q : InterestQueue Interest) : UnackedInterests × InterestQueue Interest :=
  let within : ℕ × List Interest → Bool := fun p =>
    decide ((current : ℤ) - (p.1 : ℤ) < 32)
  let q' := (u.unacked.filter within).foldl
    (fun acc p => p.2.foldl (fun acc2 i => acc2.push_front i) acc) q
  (⟨u.unacked.filter fun p => ! within p⟩, q')

/-- Structure `QueuedInputs<I>` (`src/sabi/src/protocol/input.rs`): the
per-tick input map `BTreeMap<NetworkTick, I>`, modelled as an association
list (first match wins on lookup; keys are distinct in map states). -/
structure QueuedInputs (I : Type) where
  queue : List (ℕ × I)

namespace QueuedInputs

variable {I : Type}

/-- Method `QueuedInputs::get(tick)`. -/
def get (q : QueuedInputs I) (t : ℕ) : Option I := q.queue.lookup t

/-- Map insertion `self.queue.insert(tick, input)` used by
`QueuedInputs::upsert`: replace the value at an existing key, or add the
binding. -/
def upsertKey : List (ℕ × I) → ℕ → I → List (ℕ × I)
  | [], t, v => [(t, v)]
  | (k, w) :: rest, t, v =>
    if k = t then (k, v) :: rest else (k, w) :: upsertKey rest t v

/-- Method `QueuedInputs::upsert` (an unconditional `BTreeMap::insert`). -/
def upsert (q : QueuedInputs I) (t : ℕ) (v : I) : QueuedInputs I :=
  ⟨upsertKey q.queue t v⟩

/-- Method `QueuedInputs::apply_buffer(other)`: upsert every entry of the
received buffer, in the order the incoming map iterates. -/
def apply_buffer (q other : QueuedInputs I) : QueuedInputs I :=
  other.queue.foldl (fun acc p => acc.upsert p.1 p.2) q

/-- Method `QueuedInputs::clean_old(current)`:
`self.queue.retain(|tick, _| current.tick() >= tick.tick())` — keeps the
entries with `tick ≤ current`, dropping the forward-buffered future
entries. (The doc comment in the source says the opposite, "clean any in
the queue that are before the current tick".) -/
def clean_old (q : QueuedInputs I) (current : ℕ) : QueuedInputs I :=
  ⟨q.queue.filter fun p => decide (p.1 ≤ current)⟩

end QueuedInputs

/-- The merge performed by `server_recv_input` for one client
(`src/sabi/src/protocol/input.rs`): `queued_inputs.clean_old(*tick)` at the
start of the pass, then `queued_inputs.upsert(client_id, message.inputs)`,
which for an existing client entry is `apply_buffer`. -/
def server_merge {I : Type} (current : ℕ) (q incoming : QueuedInputs I) :
    QueuedInputs I :=
  (q.clean_old current).apply_buffer incoming

/-- Method `NetworkSimulationInfo::timestep()` (`src/sabi/src/stage.rs`):
the effective step, `step ± accel_step` with saturating arithmetic
(`Duration`s are modelled as natural numbers of nanoseconds). -/
def timestep (step accel_step : ℕ) (accel : Bool) : ℕ :=
  if accel then step + accel_step else step - accel_step

/-- The catch-up `while` loop of `NetworkSimulationStage::run`:
`while accumulator >= timestep { accumulator -= timestep; tick += 1; }`
(each consumed step also runs the sim schedule and the meta schedule,
which are opaque here and do not touch the accumulator or the tick
counter). Returns the final `(accumulator, tick)`. -/
def catchup (step acc tick : ℕ) : ℕ × ℕ :=
  if h : 0 < step ∧ step ≤ acc then
    catchup step (acc - step) (tick + 1)
  else
    (acc, tick)
termination_by acc
decreasing_by omega

/-- Feeding a sequence of per-frame wall-clock deltas to the driver: each
frame adds its delta to the accumulator and runs the catch-up loop
(`self.info.accumulator += time.delta()` followed by the `while`). -/
def runFrames (step : ℕ) (deltas : List ℕ) (acc tick : ℕ) : ℕ × ℕ :=
  deltas.foldl (fun st d => catchup step (st.1 + d) st.2) (acc, tick)

/-- The rewind/resim `for` loop of `NetworkSimulationStage::run`, counting
`n` remaining iterations: each iteration increments the tick, runs the sim
schedule, then the input-history stage, then the update-history stage. -/
def resim {S : Type} (sim inputH updateH : ℕ → S → S) :
    ℕ → ℕ → S → ℕ × S
  | 0, tick, s => (tick, s)
  | n + 1, tick, s =>
    resim sim inputH updateH n (tick + 1)
      (updateH (tick + 1) (inputH (tick + 1) (sim (tick + 1) s)))

/-- The rewind branch of `NetworkSimulationStage::run`: with a pending
`Rewind(rewind_tick)` and current tick `T`, when `rewind_tick < T` the
driver sets the tick to `rewind_tick`, runs the rewind stage (snapshot
restore), the input-history stage and the update-history stage, then
resimulates `rewind_tick..T`; otherwise nothing happens. Returns the final
`(tick, state)` (the source then asserts the final tick equals `T`). -/
def rewindPass {S : Type} (rew sim inputH updateH : ℕ → S → S)
    (T rewind_tick : ℕ) (s : S) : ℕ × S :=
  if rewind_tick < T then
    resim sim inputH updateH (T - rewind_tick) rewind_tick
      (updateH rewind_tick (inputH rewind_tick (rew rewind_tick s)))
  else
    (T, s)

/-- Straight-through simulation as claim C1 words it: starting from the
snapshot state restored at tick `t`, apply the update history and input
history at `t`, then for each tick up to `T` run the deterministic sim and
apply the same histories at that tick. -/
def straightTo {S : Type} (sim inputH updateH : ℕ → S → S) (t : ℕ) :
    ℕ → S → S
  | T, s0 =>
    if T ≤ t then
      updateH t (inputH t s0)
    else
      updateH T (inputH T (sim T (straightTo sim inputH updateH t (T - 1) s0)))
termination_by T => T
decreasing_by omega

/-! ## Lemmas and claim theorems -/

namespace NetworkAck

/-- Membership in the window part of `set_base`: a tick of the 32-bit
window whose bit is clear, `t = base - i - 1` for the emitting bit index
`i`. -/
lemma mem_window (a : NetworkAck) (b' t : ℕ) :
    t ∈ a.window b' ↔
      ∃ i : ℕ, i < 32 ∧ max (32 - ((b' : ℤ) - (a.base : ℤ))) 0 ≤ (i : ℤ) ∧
        0 < (a.base : ℤ) - (i : ℤ) ∧ a.ack &&& ((1 : ℕ) <<< i) = 0 ∧
        (t : ℤ) = (a.base : ℤ) - (i : ℤ) - 1 := by
  unfold window
  constructor
  · intro ht
    simp only [List.mem_filterMap, List.mem_reverse, List.mem_filter,
      List.mem_range, decide_eq_true_eq] at ht
    obtain ⟨i, ⟨hi32, hilo⟩, hf⟩ := ht
    split_ifs at hf with hcond
    simp only [Option.some.injEq] at hf
    exact ⟨i, hi32, hilo, hcond.1, hcond.2, by omega⟩
  · rintro ⟨i, hi32, hilo, hipos, hbit, hteq⟩
    refine List.mem_filterMap.mpr ⟨i, ?_, ?_⟩
    · simp only [List.mem_reverse, List.mem_filter, List.mem_range,
        decide_eq_true_eq]
      exact ⟨hi32, hilo⟩
    · simp only [if_pos (And.intro hipos hbit), Option.some.injEq]
      omega

/-- Membership in the gap extension of `set_base`: only emitted when the
base jumps by at least 32, namely the ticks `[base + 32, new_base)`. -/
lemma mem_gapExt (a : NetworkAck) (b' t : ℕ) :
    t ∈ a.gapExt b' ↔
      32 ≤ (b' : ℤ) - (a.base : ℤ) ∧ a.base + 32 ≤ t ∧ t < b' := by
  unfold gapExt
  split_ifs with h32
  · simp only [List.mem_map, List.mem_range]
    constructor
    · rintro ⟨n, hn, rfl⟩
      omega
    · rintro ⟨-, hlo, hhi⟩
      exact ⟨t - (a.base + 32), by omega, by omega⟩
  · simp only [List.not_mem_nil, false_iff, not_and]
    intro h
    omega

/-- `n &&& (1 <<< i) = 0` says bit `i` of `n` is clear. -/
lemma and_one_shiftLeft_eq_zero {n i : ℕ} (h : n &&& (1 <<< i) = 0) :
    n.testBit i = false := by
  rw [Nat.shiftLeft_eq, one_mul, Nat.and_two_pow] at h
  rcases hb : n.testBit i with _ | _
  · rfl
  · rw [hb] at h
    simp at h

/-- Injectivity of the window emitter: two bit indices emitting the same
tick are equal. -/
lemma window_nodup (a : NetworkAck) (b' : ℕ) : (a.window b').Nodup := by
  unfold window
  refine List.Nodup.filterMap ?_ ?_
  · intro i i' t hi hi'
    simp only [Option.mem_def] at hi hi'
    split_ifs at hi with h
    split_ifs at hi' with h'
    simp only [Option.some.injEq] at hi hi'
    omega
  · exact List.nodup_reverse.mpr ((List.nodup_range 32).filter _)

/-- The gap extension is duplicate-free. -/
lemma gapExt_nodup (a : NetworkAck) (b' : ℕ) : (a.gapExt b').Nodup := by
  unfold gapExt
  split_ifs with h32
  · refine List.Nodup.map ?_ (List.nodup_range _)
    intro n m hnm
    simp only at hnm
    omega
  · exact List.nodup_nil

end NetworkAck

namespace InterestQueue

variable {I : Type} [DecidableEq I]

/-- Lemma: `swap_remove_back` at an in-range index is a permutation of
deleting that index. -/
lemma swapRemoveBack_perm (l : List I) (i : ℕ) (hi : i < l.length) :
    (swapRemoveBack l i).Perm (l.eraseIdx i) := by
  rcases l.eq_nil_or_concat with rfl | ⟨m, b, rfl⟩
  · simp at hi
  · rw [List.concat_eq_append] at hi ⊢
    unfold swapRemoveBack
    rw [if_pos hi, List.getLast?_concat]
    show (((m ++ [b]).set i b).dropLast).Perm ((m ++ [b]).eraseIdx i)
    rw [List.set_append]
    by_cases him : i < m.length
    · rw [if_pos him, List.dropLast_concat, List.eraseIdx_append_of_lt_length him,
        List.set_eq_take_cons_drop _ him, List.eraseIdx_eq_take_drop_succ,
        List.append_assoc]
      exact List.Perm.append_left _ (List.perm_append_singleton _ _).symm
    · have him' : i = m.length := by
        simp only [List.length_append, List.length_singleton] at hi
        omega
      subst him'
      rw [if_neg him]
      simp only [Nat.sub_self, List.set_cons_zero, List.dropLast_concat,
        List.eraseIdx_append_of_length_le (le_refl m.length), Nat.sub_self]
      simp

/-- Lemma: relocating a present element with `push_front` permutes the
queue. -/
lemma push_front_perm_of_mem (q : InterestQueue I) (x : I)
    (hc : x ∈ q.contains) (hx : x ∈ q.queue) :
    ((q.push_front x).queue).Perm q.queue := by
  unfold push_front
  rw [if_pos hc]
  have hlt : (q.queue.findIdx fun y => decide (y = x)) < q.queue.length :=
    List.findIdx_lt_length.mpr ⟨x, hx, by simp⟩
  have hget : GetElem.getElem q.queue (q.queue.findIdx fun y => decide (y = x)) hlt = x := by
    have h3 := @List.findIdx_getElem _ (fun y => decide (y = x)) q.queue hlt
    simpa using h3
  have h1 := swapRemoveBack_perm q.queue _ hlt
  have h2 : q.queue.Perm
      (x :: q.queue.eraseIdx (q.queue.findIdx fun y => decide (y = x))) := by
    rw [List.eraseIdx_eq_take_drop_succ]
    conv_lhs => rw [← List.take_append_drop (q.queue.findIdx fun y => decide (y = x)) q.queue,
      List.drop_eq_getElem_cons hlt, hget]
    exact List.perm_middle
  exact (h1.cons x).trans h2.symm

/-- Lemma: the empty queue satisfies the invariant. -/
lemma Inv_new : (new : InterestQueue I).Inv :=
  ⟨List.nodup_nil, by simp [new]⟩

/-- Lemma: `push_back` preserves the invariant. -/
lemma Inv_push_back {q : InterestQueue I} (h : q.Inv) (x : I) :
    (q.push_back x).Inv := by
  unfold push_back
  split_ifs with hc
  · exact h
  · have hxq : x ∉ q.queue := fun hmem => hc (h.2 ▸ List.mem_toFinset.mpr hmem)
    refine ⟨?_, ?_⟩
    · exact h.1.append (List.nodup_singleton x)
        (List.disjoint_left.mpr fun a ha hax => hxq (by
          simp only [List.mem_singleton] at hax
          exact hax ▸ ha))
    · rw [h.2]
      ext y
      simp [or_comm]

/-- Lemma: `push_front` preserves the invariant. -/
lemma Inv_push_front {q : InterestQueue I} (h : q.Inv) (x : I) :
    (q.push_front x).Inv := by
  by_cases hc : x ∈ q.contains
  · have hx : x ∈ q.queue := List.mem_toFinset.mp (h.2 ▸ hc)
    have hperm := push_front_perm_of_mem q x hc hx
    refine ⟨hperm.symm.nodup h.1, ?_⟩
    have hcontains : (q.push_front x).contains = q.contains := by
      unfold push_front
      rw [if_pos hc]
    rw [hcontains, h.2, List.toFinset_eq_of_perm _ _ hperm]
  · have hxq : x ∉ q.queue := fun hmem => hc (h.2 ▸ List.mem_toFinset.mpr hmem)
    unfold push_front
    rw [if_neg hc]
    exact ⟨List.nodup_cons.mpr ⟨hxq, h.1⟩, by rw [h.2, List.toFinset_cons]⟩

/-- Lemma: `pop_front` preserves the invariant. -/
lemma Inv_pop_front {q : InterestQueue I} (h : q.Inv) : q.pop_front.2.Inv := by
  obtain ⟨c, l⟩ := q
  cases l with
  | nil => exact h
  | cons x rest =>
    obtain ⟨hnd, hset⟩ := h
    dsimp only at hnd hset
    have hx : x ∉ rest := (List.nodup_cons.mp hnd).1
    refine ⟨(List.nodup_cons.mp hnd).2, ?_⟩
    show c.erase x = rest.toFinset
    rw [hset, List.toFinset_cons, Finset.erase_insert]
    exact fun hmem => hx (List.mem_toFinset.mp hmem)

/-- Lemma: the invariant holds after any operation sequence from empty. -/
lemma Inv_runOps (ops : List (QueueOp I)) : (runOps ops).Inv := by
  suffices h : ∀ (ops : List (QueueOp I)) (q : InterestQueue I),
      q.Inv → (ops.foldl applyOp q).Inv by
    exact h ops new Inv_new
  intro ops
  induction ops with
  | nil => exact fun q h => h
  | cons op rest ih =>
    intro q h
    refine ih _ ?_
    cases op with
    | pushBack x => exact Inv_push_back h x
    | pushFront x => exact Inv_push_front h x
    | popFront => exact Inv_pop_front h

/-- Lemma: the pushed element is in the queue after `push_front`. -/
lemma mem_push_front_self (q : InterestQueue I) (x : I) :
    x ∈ (q.push_front x).queue := by
  unfold push_front
  split_ifs <;> exact List.mem_cons_self x _

/-- Lemma: `push_front` on an invariant-satisfying queue keeps every queued
element queued. -/
lemma mem_push_front_of_mem {q : InterestQueue I} (h : q.Inv) {y : I} (x : I)
    (hy : y ∈ q.queue) : y ∈ (q.push_front x).queue := by
  by_cases hc : x ∈ q.contains
  · have hx : x ∈ q.queue := List.mem_toFinset.mp (h.2 ▸ hc)
    exact (push_front_perm_of_mem q x hc hx).mem_iff.mpr hy
  · unfold push_front
    rw [if_neg hc]
    exact List.mem_cons_of_mem _ hy

end InterestQueue

/-- C4: for any sequence of `push_back`, `push_front` and `pop_front`
operations on an `InterestQueue` starting from empty, the companion set and
the queue list have equal size, the list has no duplicates, and each
element of the set appears in the list exactly once. -/
theorem C4_interest_queue_invariant (ops : List (QueueOp Interest)) :
    (runOps ops).contains.card = (runOps ops).queue.length ∧
    (runOps ops).queue.Nodup ∧
    ∀ x : Interest, x ∈ (runOps ops).contains ↔ x ∈ (runOps ops).queue := by
  have h := InterestQueue.Inv_runOps ops
  refine ⟨?_, h.1, fun x => ?_⟩
  · rw [h.2]
    exact List.toFinset_card_of_nodup h.1
  · rw [h.2]
    exact List.mem_toFinset

/-- C5 counterexample: on the queue `[(0,1), (0,2), (0,3), (0,4)]`,
`push_front (0,2)` produces `[(0,2), (0,1), (0,4), (0,3)]` — the back
element `(0,4)` is swapped into the old slot of `(0,2)`, reversing the
relative order of `(0,3)` and `(0,4)` — rather than the order-preserving
`[(0,2), (0,1), (0,3), (0,4)]` the claim demands. -/
theorem C5_counterexample :
    (runOps [QueueOp.pushBack ((0 : ℕ), (1 : ℕ)), .pushBack (0, 2), .pushBack (0, 3),
        .pushBack (0, 4)]).queue = [(0, 1), (0, 2), (0, 3), (0, 4)] ∧
    ((runOps [QueueOp.pushBack ((0 : ℕ), (1 : ℕ)), .pushBack (0, 2), .pushBack (0, 3),
        .pushBack (0, 4)]).push_front (0, 2)).queue = [(0, 2), (0, 1), (0, 4), (0, 3)] ∧
    ((runOps [QueueOp.pushBack ((0 : ℕ), (1 : ℕ)), .pushBack (0, 2), .pushBack (0, 3),
        .pushBack (0, 4)]).push_front (0, 2)).queue ≠ [(0, 2), (0, 1), (0, 3), (0, 4)] := by
  decide

/-- C5 (amended): on a queue satisfying the representation invariant,
`push_front` of an already-present element moves it to the head and
preserves the multiset of queued elements and the companion set, but not
necessarily the relative order of the other elements (the back element is
swapped into the old slot of the promoted one). -/
theorem C5_push_front_promotes (q : InterestQueue Interest) (x : Interest)
    (hq : q.Inv) (hx : x ∈ q.queue) :
    (q.push_front x).queue.head? = some x ∧
    ((q.push_front x).queue).Perm q.queue ∧
    (q.push_front x).contains = q.contains := by
  have hc : x ∈ q.contains := hq.2 ▸ List.mem_toFinset.mpr hx
  refine ⟨?_, InterestQueue.push_front_perm_of_mem q x hc hx, ?_⟩
  · unfold InterestQueue.push_front
    rw [if_pos hc]
    rfl
  · unfold InterestQueue.push_front
    rw [if_pos hc]

/-- C5 witness: the amended theorem applied to the concrete queue
`[(1,1), (2,2), (3,3)]` with `x = (2,2)`. -/
theorem C5_push_front_promotes_witness :
    (runOps [QueueOp.pushBack ((1 : ℕ), (1 : ℕ)), .pushBack (2, 2), .pushBack (3, 3)]).Inv ∧
    ((2 : ℕ), (2 : ℕ)) ∈
      (runOps [QueueOp.pushBack ((1 : ℕ), (1 : ℕ)), .pushBack (2, 2), .pushBack (3, 3)]).queue ∧
    (((runOps [QueueOp.pushBack ((1 : ℕ), (1 : ℕ)), .pushBack (2, 2),
          .pushBack (3, 3)]).push_front (2, 2)).queue.head? = some (2, 2) ∧
      (((runOps [QueueOp.pushBack ((1 : ℕ), (1 : ℕ)), .pushBack (2, 2),
          .pushBack (3, 3)]).push_front (2, 2)).queue).Perm
        (runOps [QueueOp.pushBack ((1 : ℕ), (1 : ℕ)), .pushBack (2, 2),
          .pushBack (3, 3)]).queue ∧
      ((runOps [QueueOp.pushBack ((1 : ℕ), (1 : ℕ)), .pushBack (2, 2),
          .pushBack (3, 3)]).push_front (2, 2)).contains =
        (runOps [QueueOp.pushBack ((1 : ℕ), (1 : ℕ)), .pushBack (2, 2),
          .pushBack (3, 3)]).contains) :=
  ⟨by decide, by decide, C5_push_front_promotes _ _ (by decide) (by decide)⟩

/-- C6 counterexample: MTU 1500, queue `[(0,1), (0,2)]`, estimates
`est 1 = 1600`, `est 2 = 10`, no requires. The first group does not fit
(`0 + 1600 > 1500`); the claim's condition `MTU - used = 1500 > 30` says
the loop continues and then sends `(0,2)`, but the code compares
`MTU - (used + est) = 0 > 30`, breaks, and sends nothing. -/
theorem C6_counterexample :
    dispatchLoop 1500 (fun rid => if rid = 1 then 1600 else 10) (fun _ => [])
        {((0 : ℕ), (1 : ℕ)), (0, 2)} [(0, 1), (0, 2)] 0 [] []
      = ([], [(0, 1)], ⟨{(0, 2)}, [(0, 2)]⟩) ∧
    dispatchLoopClaim 1500 (fun rid => if rid = 1 then 1600 else 10) (fun _ => [])
        [(0, 1), (0, 2)] 0 [] []
      = ([(0, 2)], [(0, 1)], []) ∧
    ([] : List Interest) ≠ [(0, 2)] := by
  refine ⟨?_, ?_, by decide⟩ <;> rfl

/-- C6 (amended): the dispatch loop records a non-fitting popped interest
in `unsent` and continues scanning if and only if the remaining budget
after accounting the popped group, `MTU - (used + est)` with saturating
subtraction, exceeds 30 bytes; formally, the source loop computes exactly
the outgoing list, the unsent list and the remaining queue of the
amended-claim loop `dispatchLoopAmended`. -/
theorem C6_dispatch_loop_amended (mtu : ℕ) (est : ℕ → ℕ) (req : ℕ → List ℕ) :
    ∀ (queue : List Interest) (contains : Finset Interest) (used : ℕ)
      (to_send unsent : List Interest),
      (dispatchLoop mtu est req contains queue used to_send unsent).1
          = (dispatchLoopAmended mtu est req queue used to_send unsent).1 ∧
      (dispatchLoop mtu est req contains queue used to_send unsent).2.1
          = (dispatchLoopAmended mtu est req queue used to_send unsent).2.1 ∧
      (dispatchLoop mtu est req contains queue used to_send unsent).2.2.queue
          = (dispatchLoopAmended mtu est req queue used to_send unsent).2.2 := by
  intro queue
  induction queue with
  | nil => intro contains used to_send unsent; exact ⟨rfl, rfl, rfl⟩
  | cons hd rest ih =>
    intro contains used to_send unsent
    obtain ⟨entity, rid⟩ := hd
    simp only [dispatchLoop, dispatchLoopAmended]
    split_ifs with h1 h2
    · exact ih _ _ _ _
    · exact ⟨rfl, rfl, rfl⟩
    · exact ih _ _ _ _

/-- Lemma: folding `push_front` over a list of interests preserves the
invariant and puts every pushed interest (and every previously queued
element) in the resulting queue. -/
lemma foldl_push_front_spec (xs : List Interest) :
    ∀ (q : InterestQueue Interest), q.Inv →
      (xs.foldl (fun a i => a.push_front i) q).Inv ∧
      ∀ y : Interest, (y ∈ q.queue ∨ y ∈ xs) →
        y ∈ (xs.foldl (fun a i => a.push_front i) q).queue := by
  induction xs with
  | nil =>
    intro q hq
    exact ⟨hq, fun y hy => hy.resolve_right (by simp)⟩
  | cons x xs ih =>
    intro q hq
    obtain ⟨ih1, ih2⟩ := ih (q.push_front x) (InterestQueue.Inv_push_front hq x)
    refine ⟨ih1, fun y hy => ih2 y ?_⟩
    rcases hy with hy | hy
    · exact Or.inl (InterestQueue.mem_push_front_of_mem hq x hy)
    · rcases List.mem_cons.mp hy with rfl | hy
      · exact Or.inl (InterestQueue.mem_push_front_self q y)
      · exact Or.inr hy

/-- Lemma: the promotion fold of `resend_unacked` preserves the invariant
and queues every interest of every promoted ledger entry. -/
lemma foldl_promote_spec (entries : List (ℕ × List Interest)) :
    ∀ (q : InterestQueue Interest), q.Inv →
      (entries.foldl (fun acc p => p.2.foldl (fun a i => a.push_front i) acc) q).Inv ∧
      ∀ y : Interest,
        (y ∈ q.queue ∨ ∃ p ∈ entries, y ∈ p.2) →
        y ∈ (entries.foldl (fun acc p => p.2.foldl (fun a i => a.push_front i) acc) q).queue := by
  induction entries with
  | nil =>
    intro q hq
    refine ⟨hq, fun y hy => ?_⟩
    rcases hy with hy | ⟨p, hp, -⟩
    · exact hy
    · simp at hp
  | cons e entries ih =>
    intro q hq
    obtain ⟨h1, h2⟩ := foldl_push_front_spec e.2 q hq
    obtain ⟨ih1, ih2⟩ := ih (e.2.foldl (fun a i => a.push_front i) q) h1
    refine ⟨ih1, fun y hy => ih2 y ?_⟩
    rcases hy with hy | ⟨p, hp, hyp⟩
    · exact Or.inl (h2 y (Or.inl hy))
    · rcases List.mem_cons.mp hp with rfl | hp
      · exact Or.inl (h2 y (Or.inr hyp))
      · exact Or.inr ⟨p, hp, hyp⟩

/-- C7 counterexample: ledger `{0 ↦ [(0,0)]}` at current tick 32. The
entry's age `32 - 0 = 32` is outside the 32-tick resend horizon, so the
claim says the resend pass drops it, but `resend_unacked` leaves it in
place. -/
theorem C7_counterexample :
    ((UnackedInterests.mk [(0, [((0 : ℕ), (0 : ℕ))])]).resend_unacked 32
        InterestQueue.new).1.unacked = [(0, [(0, 0)])] ∧
    32 ≤ (32 : ℤ) - ((0 : ℕ) : ℤ) := by
  exact ⟨rfl, by decide⟩

/-- C7 (amended): after the resend pass at tick `T` on a queue satisfying
the invariant, the ledger holds exactly its former entries whose age is at
least the 32-tick horizon (`T - t ≥ 32` in i64 arithmetic) — entries
within the horizon are promoted into the queue and removed, while the
older entries are retained rather than dropped. -/
theorem C7_resend_unacked_ledger (current : ℕ) (u : UnackedInterests)
    (q : InterestQueue Interest) (hq : q.Inv) :
    (∀ p : ℕ × List Interest,
        p ∈ (u.resend_unacked current q).1.unacked ↔
          p ∈ u.unacked ∧ 32 ≤ (current : ℤ) - (p.1 : ℤ)) ∧
    ∀ p ∈ u.unacked, (current : ℤ) - (p.1 : ℤ) < 32 →
      ∀ i ∈ p.2, i ∈ (u.resend_unacked current q).2.queue := by
  constructor
  · intro p
    show p ∈ u.unacked.filter _ ↔ _
    rw [List.mem_filter]
    simp only [Bool.not_eq_true']
    constructor
    · rintro ⟨hp, hb⟩
      refine ⟨hp, ?_⟩
      have := of_decide_eq_false hb
      omega
    · rintro ⟨hp, hb⟩
      exact ⟨hp, decide_eq_false (by omega)⟩
  · intro p hp hage i hi
    have hmem : p ∈ u.unacked.filter fun r => decide ((current : ℤ) - (r.1 : ℤ) < 32) :=
      List.mem_filter.mpr ⟨hp, decide_eq_true hage⟩
    exact (foldl_promote_spec _ q hq).2 i (Or.inr ⟨p, hmem, hi⟩)

/-- C7 witness: the amended theorem applied to the concrete ledger
`{0 ↦ [(7,7)], 40 ↦ [(1,2)]}` at tick 50 with the empty queue. -/
theorem C7_resend_unacked_ledger_witness :
    (InterestQueue.new : InterestQueue Interest).Inv ∧
    ((∀ p : ℕ × List Interest,
        p ∈ ((UnackedInterests.mk [(0, [((7 : ℕ), (7 : ℕ))]), (40, [(1, 2)])]).resend_unacked 50
            InterestQueue.new).1.unacked ↔
          p ∈ (UnackedInterests.mk [(0, [((7 : ℕ), (7 : ℕ))]), (40, [(1, 2)])]).unacked ∧
            32 ≤ (50 : ℤ) - (p.1 : ℤ)) ∧
      ∀ p ∈ (UnackedInterests.mk [(0, [((7 : ℕ), (7 : ℕ))]), (40, [(1, 2)])]).unacked,
        (50 : ℤ) - (p.1 : ℤ) < 32 →
        ∀ i ∈ p.2,
          i ∈ ((UnackedInterests.mk [(0, [((7 : ℕ), (7 : ℕ))]), (40, [(1, 2)])]).resend_unacked 50
              InterestQueue.new).2.queue) :=
  ⟨by decide, C7_resend_unacked_ledger 50 _ _ (by decide)⟩

namespace QueuedInputs

variable {I : Type}

/-- Lemma: lookup at the upserted key yields the new value. -/
lemma lookup_upsertKey_self (l : List (ℕ × I)) (t : ℕ) (v : I) :
    (upsertKey l t v).lookup t = some v := by
  induction l with
  | nil => simp [upsertKey, List.lookup]
  | cons p rest ih =>
    obtain ⟨k, w⟩ := p
    unfold upsertKey
    split_ifs with hk
    · subst hk
      simp [List.lookup]
    · rw [List.lookup_cons]
      have : (t == k) = false := by
        simp only [beq_eq_false_iff_ne, ne_eq]
        exact fun h => hk h.symm
      rw [this]
      exact ih

/-- Lemma: lookup at a different key is unchanged by an upsert. -/
lemma lookup_upsertKey_ne (l : List (ℕ × I)) (t : ℕ) (v : I) (t' : ℕ)
    (h : t' ≠ t) : (upsertKey l t v).lookup t' = l.lookup t' := by
  induction l with
  | nil =>
    simp only [upsertKey, List.lookup_cons]
    have : (t' == t) = false := by simpa using h
    rw [this]
  | cons p rest ih =>
    obtain ⟨k, w⟩ := p
    unfold upsertKey
    split_ifs with hk
    · subst hk
      rw [List.lookup_cons, List.lookup_cons]
      have : (t' == k) = false := by simpa using h
      rw [this]
    · rw [List.lookup_cons, List.lookup_cons]
      cases hbe : t' == k
      · exact ih
      · rfl

/-- Lemma: folding upserts of entries that avoid a key leaves that key's
lookup unchanged. -/
lemma get_foldl_upsert_of_not_mem (entries : List (ℕ × I)) :
    ∀ (q : QueuedInputs I) (t : ℕ), t ∉ entries.map Prod.fst →
      (entries.foldl (fun acc p => acc.upsert p.1 p.2) q).get t = q.get t := by
  induction entries with
  | nil => intro q t _; rfl
  | cons p rest ih =>
    intro q t ht
    simp only [List.map_cons, List.mem_cons, not_or] at ht
    rw [List.foldl_cons, ih _ t ht.2]
    exact lookup_upsertKey_ne q.queue p.1 p.2 t ht.1

/-- Lemma: after folding the upserts of a duplicate-free buffer, each
buffered entry's key maps to its buffered value. -/
lemma get_foldl_upsert_of_mem (entries : List (ℕ × I)) :
    ∀ (q : QueuedInputs I) (t : ℕ) (v : I),
      (entries.map Prod.fst).Nodup → (t, v) ∈ entries →
      (entries.foldl (fun acc p => acc.upsert p.1 p.2) q).get t = some v := by
  induction entries with
  | nil => intro q t v _ hm; simp at hm
  | cons p rest ih =>
    intro q t v hnd hm
    simp only [List.map_cons, List.nodup_cons] at hnd
    rcases List.mem_cons.mp hm with rfl | hm
    · rw [List.foldl_cons,
        get_foldl_upsert_of_not_mem rest (q.upsert t v) t hnd.1]
      exact lookup_upsertKey_self q.queue t v
    · exact ih _ t v hnd.2 hm

/-- Lemma: lookup after `clean_old` keeps past-or-current keys and erases
future keys. -/
lemma lookup_filter_le (T t : ℕ) (l : List (ℕ × I)) :
    (l.filter fun p => decide (p.1 ≤ T)).lookup t =
      if t ≤ T then l.lookup t else none := by
  induction l with
  | nil => simp
  | cons p rest ih =>
    obtain ⟨k, w⟩ := p
    by_cases hk : k ≤ T
    · rw [List.filter_cons_of_pos (by simpa using hk), List.lookup_cons,
        List.lookup_cons]
      cases hbe : t == k
      · exact ih
      · have : t = k := by simpa using hbe
        subst this
        rw [if_pos hk]
    · rw [List.filter_cons_of_neg (by simpa using hk), ih, List.lookup_cons]
      cases hbe : t == k
      · rfl
      · have : t = k := by simpa using hbe
        subst this
        simp only [if_neg hk]

end QueuedInputs

/-- C8 counterexample: server tick 10, existing per-client queue
`{5 ↦ 0}`, incoming buffer `{5 ↦ 1}`. Tick 5 is older than the server
tick, so the claim says the existing entry wins, but the merge overwrites
it with the incoming value. -/
theorem C8_counterexample :
    (5 : ℕ) < 10 ∧
    (QueuedInputs.mk [((5 : ℕ), (0 : ℕ))]).get 5 = some 0 ∧
    (server_merge 10 (QueuedInputs.mk [((5 : ℕ), (0 : ℕ))])
        (QueuedInputs.mk [(5, 1)])).get 5 = some 1 ∧
    some (1 : ℕ) ≠ some (0 : ℕ) := by
  refine ⟨by decide, rfl, rfl, by decide⟩

/-- C8 (amended): the server merge of a received input buffer always
overwrites — every entry of the (duplicate-free) incoming buffer ends up
in the per-client queue with its incoming value regardless of how its tick
compares with the current server tick, and ticks absent from the buffer
keep their value from the cleaned queue. -/
theorem C8_server_merge_overwrites {I : Type} (current : ℕ)
    (q other : QueuedInputs I) (hnd : (other.queue.map Prod.fst).Nodup) :
    (∀ p ∈ other.queue, (server_merge current q other).get p.1 = some p.2) ∧
    ∀ t : ℕ, t ∉ other.queue.map Prod.fst →
      (server_merge current q other).get t = (q.clean_old current).get t := by
  constructor
  · intro p hp
    exact QueuedInputs.get_foldl_upsert_of_mem other.queue _ p.1 p.2 hnd hp
  · intro t ht
    exact QueuedInputs.get_foldl_upsert_of_not_mem other.queue _ t ht

/-- C8 witness: the amended theorem applied at server tick 10, queue
`{5 ↦ 0}` and incoming buffer `{5 ↦ 1, 12 ↦ 7}`. -/
theorem C8_server_merge_overwrites_witness :
    ((QueuedInputs.mk [((5 : ℕ), (1 : ℕ)), (12, 7)]).queue.map Prod.fst).Nodup ∧
    ((∀ p ∈ (QueuedInputs.mk [((5 : ℕ), (1 : ℕ)), (12, 7)]).queue,
        (server_merge 10 (QueuedInputs.mk [((5 : ℕ), (0 : ℕ))])
            (QueuedInputs.mk [((5 : ℕ), (1 : ℕ)), (12, 7)])).get p.1 = some p.2) ∧
      ∀ t : ℕ, t ∉ (QueuedInputs.mk [((5 : ℕ), (1 : ℕ)), (12, 7)]).queue.map Prod.fst →
        (server_merge 10 (QueuedInputs.mk [((5 : ℕ), (0 : ℕ))])
            (QueuedInputs.mk [((5 : ℕ), (1 : ℕ)), (12, 7)])).get t =
          ((QueuedInputs.mk [((5 : ℕ), (0 : ℕ))]).clean_old 10).get t) :=
  ⟨by decide, C8_server_merge_overwrites 10 _ _ (by decide)⟩

/-- C10: `QueuedInputs::clean_old(T)` retains exactly the entries with tick
at most `T`: lookups of past-or-current ticks are unchanged, lookups of
future ticks become `none`, and an entry survives if and only if it was
present with tick at most `T`. -/
theorem C10_clean_old_retains_past {I : Type} (q : QueuedInputs I) (T t : ℕ) :
    ((q.clean_old T).get t = if t ≤ T then q.get t else none) ∧
    ∀ p : ℕ × I, p ∈ (q.clean_old T).queue ↔ p ∈ q.queue ∧ p.1 ≤ T := by
  constructor
  · exact QueuedInputs.lookup_filter_le T t q.queue
  · intro p
    show p ∈ q.queue.filter _ ↔ _
    rw [List.mem_filter]
    simp

namespace NetworkAck

/-- C2: evidence for the off-by-one in `NetworkAck::ack`. At `base = 33`,
`tick = 0` the difference `base - 1 - tick = 32` lies outside the claimed
window `[0, 32)`, so the claim says the call is ignored; the source
instead executes `1u32 << 32` — a shift overflow that panics in debug
builds and, with release (masked-shift) semantics as embedded in
`ackTick`, sets bit 0, wrongly marking tick `32 = base - 1` as
acknowledged. -/
theorem C2_ack_shift_overflow :
    ¬ (0 ≤ (33 : ℤ) - (0 : ℤ) - 1 ∧ (33 : ℤ) - (0 : ℤ) - 1 < 32) ∧
    ((new 33).ackTick 0).ack = 1 ∧
    ((new 33).ackTick 0).ack ≠ (new 33).ack ∧
    ((new 33).ackTick 0).ackedIn 32 = true ∧
    (new 33).ackedIn 32 = false := by
  refine ⟨by decide, rfl, by decide, by decide, by decide⟩

/-- C3 counterexample: `Ack::new(33).set_base(34)` reports tick 1 as
unacked, and `1 < 33 = prev_base`, violating the claimed lower bound
`prev_base ≤ t`. -/
theorem C3_counterexample :
    (new 33).base ≤ 34 ∧
    ((new 33).set_base 34).1 = [1] ∧
    ¬ ((new 33).base ≤ 1) := by
  refine ⟨by decide, rfl, by decide⟩

/-- C3 (amended): for every ack and every new base `b' ≥ prev_base`, the
list returned by `set_base(b')` reports no tick twice, reports no tick
that was acknowledged, and every reported unacked tick `t` satisfies
`prev_base - 32 ≤ t < b'`. -/
theorem C3_set_base_sound (a : NetworkAck) (b' : ℕ) (hb : a.base ≤ b') :
    (a.set_base b').1.Nodup ∧
    (∀ t ∈ (a.set_base b').1, a.ackedIn t = false) ∧
    ∀ t ∈ (a.set_base b').1, a.base ≤ t + 32 ∧ t < b' := by
  have hfst : (a.set_base b').1 = a.window b' ++ a.gapExt b' := rfl
  rw [hfst]
  refine ⟨?_, ?_, ?_⟩
  · refine (window_nodup a b').append (gapExt_nodup a b') (List.disjoint_left.mpr ?_)
    intro t htw htg
    obtain ⟨i, -, -, hipos, -, hteq⟩ := (mem_window a b' t).mp htw
    obtain ⟨-, hlo, -⟩ := (mem_gapExt a b' t).mp htg
    omega
  · intro t ht
    rcases List.mem_append.mp ht with htw | htg
    · obtain ⟨i, hi32, -, hipos, hbit, hteq⟩ := (mem_window a b' t).mp htw
      have h1 : t < a.base := by omega
      have h2 : a.base - t - 1 = i := by omega
      unfold ackedIn
      rw [if_pos ⟨h1, by omega⟩, h2]
      exact and_one_shiftLeft_eq_zero hbit
    · obtain ⟨-, hlo, -⟩ := (mem_gapExt a b' t).mp htg
      unfold ackedIn
      rw [if_neg]
      rintro ⟨h1, -⟩
      omega
  · intro t ht
    rcases List.mem_append.mp ht with htw | htg
    · obtain ⟨i, hi32, hilo, hipos, -, hteq⟩ := (mem_window a b' t).mp htw
      have hlo' : 32 - ((b' : ℤ) - (a.base : ℤ)) ≤ (i : ℤ) :=
        le_trans (le_max_left _ _) hilo
      omega
    · obtain ⟨-, hlo, hhi⟩ := (mem_gapExt a b' t).mp htg
      omega

/-- C3 witness: the amended theorem applied to `Ack::new(33)` and new base
40. -/
theorem C3_set_base_sound_witness :
    (new 33).base ≤ 40 ∧
    (((new 33).set_base 40).1.Nodup ∧
      (∀ t ∈ ((new 33).set_base 40).1, (new 33).ackedIn t = false) ∧
      ∀ t ∈ ((new 33).set_base 40).1, (new 33).base ≤ t + 32 ∧ t < 40) :=
  ⟨by decide, C3_set_base_sound (new 33) 40 (by decide)⟩

end NetworkAck

/-- Lemma: the catch-up loop computes division with remainder — it leaves
`acc % step` in the accumulator and adds `acc / step` ticks. -/
lemma catchup_eq (step : ℕ) (h : 0 < step) :
    ∀ acc tick, catchup step acc tick = (acc % step, tick + acc / step) := by
  intro acc
  induction acc using Nat.strong_induction_on with
  | _ acc ihacc =>
    intro tick
    rw [catchup]
    split_ifs with hc
    · rw [ihacc (acc - step) (by omega) (tick + 1)]
      have h1 : acc % step = (acc - step) % step := by
        conv_lhs => rw [show acc = acc - step + step by omega]
        exact Nat.add_mod_right _ _
      have h2 : acc / step = (acc - step) / step + 1 := by
        conv_lhs => rw [show acc = acc - step + step by omega]
        exact Nat.add_div_right _ h
      rw [Prod.mk.injEq]
      omega
    · have hlt : acc < step := by omega
      rw [Nat.mod_eq_of_lt hlt, Nat.div_eq_of_lt hlt]
      simp

/-- Lemma: feeding any delta sequence starting from an accumulator below
one step leaves `(acc + Σ deltas) % step` in the accumulator and advances
the tick by `(acc + Σ deltas) / step`. -/
lemma runFrames_closed (step : ℕ) (h : 0 < step) (deltas : List ℕ) :
    ∀ acc tick, acc < step →
      runFrames step deltas acc tick =
        ((acc + deltas.sum) % step, tick + (acc + deltas.sum) / step) := by
  induction deltas with
  | nil =>
    intro acc tick hacc
    show (acc, tick) = _
    simp only [List.sum_nil, Nat.add_zero]
    rw [Nat.mod_eq_of_lt hacc, Nat.div_eq_of_lt hacc]
    simp
  | cons d ds ih =>
    intro acc tick hacc
    show runFrames step ds (catchup step (acc + d) tick).1 (catchup step (acc + d) tick).2 = _
    rw [catchup_eq step h]
    rw [ih _ _ (Nat.mod_lt _ h)]
    have hdm := Nat.div_add_mod (acc + d) step
    have h1 : ((acc + d) % step + ds.sum) % step = (acc + (d + ds.sum)) % step := by
      conv_rhs => rw [show acc + (d + ds.sum) = (acc + d) % step + ds.sum + step * ((acc + d) / step) by omega]
      rw [Nat.add_mul_mod_self_left]
    have h2 : (acc + d) / step + ((acc + d) % step + ds.sum) / step =
        (acc + (d + ds.sum)) / step := by
      conv_rhs => rw [show acc + (d + ds.sum) = (acc + d) % step + ds.sum + step * ((acc + d) / step) by omega]
      rw [Nat.add_mul_div_left _ _ h]
      omega
    rw [Prod.mk.injEq]
    simp only [List.sum_cons]
    omega

/-- C9: with time dilation disabled (`accel_step = 0`, so the effective
step equals `step` whatever the `accel` sign is) and the tick resource
present, any partition of exactly `N × step` of wall time into per-frame
deltas makes the driver increment the tick exactly `N` times, however the
time is divided among frames. -/
theorem C9_fixed_timestep_tick_count (accel : Bool) (step N tick0 : ℕ)
    (deltas : List ℕ) (h : 0 < step) (hsum : deltas.sum = N * step) :
    (runFrames (timestep step 0 accel) deltas 0 tick0).2 = tick0 + N := by
  have ht : timestep step 0 accel = step := by
    unfold timestep
    cases accel <;> simp
  rw [ht, runFrames_closed step h deltas 0 tick0 h]
  simp only [Nat.zero_add, hsum]
  rw [Nat.mul_div_cancel _ h]

/-- C9 witness: step 2 with `accel` set, deltas `[1, 3]` summing to
`2 × 2`, starting tick 5. -/
theorem C9_fixed_timestep_tick_count_witness :
    0 < 2 ∧ ([1, 3] : List ℕ).sum = 2 * 2 ∧
    (runFrames (timestep 2 0 true) [1, 3] 0 5).2 = 5 + 2 :=
  ⟨by decide, by decide, C9_fixed_timestep_tick_count true 2 2 5 [1, 3] (by decide) (by decide)⟩

section Rewind

variable {S : Type} (sim inH upH : ℕ → S → S)

/-- Lemma: the resim loop runs exactly its count of iterations, ending at
`tick + n`. -/
lemma resim_fst (n : ℕ) :
    ∀ (tick : ℕ) (s : S), (resim sim inH upH n tick s).1 = tick + n := by
  induction n with
  | zero => intro tick s; rfl
  | succ n ih =>
    intro tick s
    show (resim sim inH upH n (tick + 1) _).1 = _
    rw [ih]
    omega

/-- Lemma: a resim run of `n + 1` steps is a resim run of `n` steps
followed by one more sim/apply-history step at tick `tick + n + 1`. -/
lemma resim_succ_top (n : ℕ) :
    ∀ (tick : ℕ) (s : S),
      resim sim inH upH (n + 1) tick s =
        (tick + n + 1,
          upH (tick + n + 1) (inH (tick + n + 1)
            (sim (tick + n + 1) (resim sim inH upH n tick s).2))) := by
  induction n with
  | zero => intro tick s; rfl
  | succ n ih =>
    intro tick s
    show resim sim inH upH (n + 1) (tick + 1)
        (upH (tick + 1) (inH (tick + 1) (sim (tick + 1) s))) = _
    rw [ih (tick + 1)]
    have harith : tick + 1 + n = tick + (n + 1) := by omega
    rw [harith]
    rfl

/-- Lemma: the resim loop started at the rewind target after applying the
histories there computes exactly the straight-through simulation of the
spec. -/
lemma resim_eq_straightTo (t : ℕ) :
    ∀ (n : ℕ) (s0 : S),
      (resim sim inH upH n t (upH t (inH t s0))).2 =
        straightTo sim inH upH t (t + n) s0 := by
  intro n
  induction n with
  | zero =>
    intro s0
    rw [straightTo]
    rw [if_pos (by omega)]
    rfl
  | succ n ih =>
    intro s0
    rw [resim_succ_top, straightTo]
    rw [if_neg (by omega)]
    have harith : t + (n + 1) - 1 = t + n := by omega
    rw [harith, ← ih s0]
    rfl

/-- C1: when the driver processes a `Rewind(t)` marker with `t` strictly
below the pre-rewind tick `T`, the rewind/resim pass ends with tick exactly
`T` and a state equal to simulating straight through from tick `t` to `T`
— starting from the snapshot state restored at `t` — applying the same
update history and input history at each tick. -/
theorem C1_rewind_resim_refines_straight_sim (rew : ℕ → S → S) (T t : ℕ)
    (s : S) (h : t < T) :
    rewindPass rew sim inH upH T t s =
      (T, straightTo sim inH upH t T (rew t s)) := by
  unfold rewindPass
  rw [if_pos h]
  rw [Prod.ext_iff]
  constructor
  · rw [resim_fst]
    omega
  · show (resim sim inH upH (T - t) t (upH t (inH t (rew t s)))).2 = _
    rw [resim_eq_straightTo]
    have harith : t + (T - t) = T := by omega
    rw [harith]

end Rewind

/-- C1 witness: the refinement applied at concrete sim and history
functions on `ℕ`, rewinding from tick 3 to tick 1. -/
theorem C1_rewind_resim_refines_straight_sim_witness :
    1 < 3 ∧
    rewindPass (fun k s => s + k) (fun k s => 2 * s + k) (fun k s => s + 10 * k)
        (fun k s => s * k) 3 1 0 =
      (3, straightTo (fun k s => 2 * s + k) (fun k s => s + 10 * k)
        (fun k s => s * k) 1 3 ((fun (k : ℕ) (s : ℕ) => s + k) 1 0)) :=
  ⟨by decide,
    C1_rewind_resim_refines_straight_sim (fun k s => 2 * s + k)
      (fun k s => s + 10 * k) (fun k s => s * k) (fun k s => s + k) 3 1 0
      (by decide)⟩

end Sabi
